import Mathlib

/-!
Verification development for the `timestate` TTL state monitor
(`monitor.go`).  The Go program is shallowly embedded:

* An `item` (heap/table entry) becomes `Entry`; Go's `time.Time` values are
  modelled as `Int` timestamps (`Before`/`After` are `<`/`>`).
* Go pointers `*item` are modelled by indices into an append-only arena
  `store : List Entry`; pointer equality (`m.items[it.Key] == it`) is index
  equality; in-place mutation through a pointer is `List.set` on the arena.
* `map[K]*item` becomes an association list `List (K × Nat)`; `delete`
  removes every pair with the given key.
* `container/heap` operations (`up`, `down`, `Push`, `Pop`, `Fix`) are
  translated from the Go standard library with an explicit structural fuel
  argument so that they evaluate by `rfl`/`decide`; the fuel supplied by
  the wrappers (`j+1` for `up`, `n` for `down`) strictly exceeds the number
  of iterations the Go loop can make, so exhaustion never occurs.
* The buffered notification channel is a pair of a buffer `List K` and a
  capacity `cap`; a non-blocking send succeeds exactly when the buffer
  holds fewer than `cap` elements.
* `checkExpirations` is one loop iteration `sweepStep` plus a fuelled
  iterator `sweepFuel`; the Go loop terminates exactly when some fuel
  suffices.
-/

namespace Timestate

/-- Go `item[K, T]`: one tracked entity with expiration. -/
structure Entry (K T : Type) where
  key : K
  value : T
  expires : Int
  removed : Bool
deriving DecidableEq, Repr

/-- Go `Monitor[K, T]` (minus the mutex and ticker, which have no
data content): the pointer arena, the heap of arena indices, the
key → pointer table and the default TTL. -/
structure Monitor (K T : Type) where
  store : List (Entry K T)
  heap : List Nat
  items : List (K × Nat)
  defaultTTL : Int
deriving DecidableEq, Repr

variable {K T : Type} [DecidableEq K] [DecidableEq T]

/-- Go map lookup `m.items[key]`: first matching pair. -/
def lookupPtr (l : List (K × Nat)) (k : K) : Option Nat :=
  match l with
  | [] => none
  | (k', p) :: rest => if k' = k then some p else lookupPtr rest k

/-- Go `delete(m.items, key)`. -/
def eraseKey (l : List (K × Nat)) (k : K) : List (K × Nat) :=
  l.filter (fun q => decide (q.1 ≠ k))

/-- Dereference a heap slot: expiration of the entry the pointer `p`
points at (pointers are always valid in reachable states; the default
is never consulted there). -/
def entryExpires (store : List (Entry K T)) (p : Nat) : Int :=
  match store.get? p with
  | some it => it.expires
  | none => 0

/-- Go `items.Less(i, j)`: `h[i].Expires.Before(h[j].Expires)`. -/
def heapLess (store : List (Entry K T)) (h : List Nat) (i j : Nat) : Bool :=
  decide (entryExpires store (h.getD i 0) < entryExpires store (h.getD j 0))

/-- Go `items.Swap(i, j)` (no-op outside bounds, where Go would panic;
all call sites stay in bounds). -/
def swapAt (l : List Nat) (i j : Nat) : List Nat :=
  (l.set i (l.getD j 0)).set j (l.getD i 0)

/-- Go `container/heap.up`, with structural fuel (the wrapper passes
`j+1`, which exceeds the iteration count since the index at least
halves each round). -/
def heapUpAux (store : List (Entry K T)) : Nat → List Nat → Nat → List Nat
  | 0, h, _ => h
  | fuel + 1, h, j =>
    let i := (j - 1) / 2
    if i = j then h
    else if heapLess store h j i then heapUpAux store fuel (swapAt h i j) i
    else h

/-- Go `container/heap.up h j`. -/
def heapUp (store : List (Entry K T)) (h : List Nat) (j : Nat) : List Nat :=
  heapUpAux store (j + 1) h j

/-- Go `container/heap.down`, with structural fuel (the wrapper passes
`n`, which exceeds the iteration count since the index strictly grows
and stays below `n`).  Returns the final index alongside the array;
Go's boolean result is `i > i0`. -/
def heapDownAux (store : List (Entry K T)) :
    Nat → List Nat → Nat → Nat → List Nat × Nat
  | 0, h, i, _ => (h, i)
  | fuel + 1, h, i, n =>
    if 2 * i + 1 < n then
      let j :=
        if 2 * i + 2 < n ∧ heapLess store h (2 * i + 2) (2 * i + 1) then 2 * i + 2
        else 2 * i + 1
      if heapLess store h j i then heapDownAux store fuel (swapAt h i j) j n
      else (h, i)
    else (h, i)

/-- Go `container/heap.down h i n` (array part and final index). -/
def heapDown (store : List (Entry K T)) (h : List Nat) (i n : Nat) :
    List Nat × Nat :=
  heapDownAux store n h i n

/-- Go `container/heap.Fix(h, i)`: `if !down(h, i, h.Len()) { up(h, i) }`. -/
def heapFix (store : List (Entry K T)) (h : List Nat) (i : Nat) : List Nat :=
  let r := heapDown store h i h.length
  if i < r.2 then r.1 else heapUp store r.1 r.2

/-- Go `container/heap.Push(h, p)`: append then sift up from the last index. -/
def heapPushGo (store : List (Entry K T)) (h : List Nat) (p : Nat) : List Nat :=
  heapUp store (h ++ [p]) h.length

/-- Go `container/heap.Pop(h)`: swap root with last, sift the new root down
over the first `n-1` slots, then remove and return the last slot. -/
def heapPopGo (store : List (Entry K T)) (h : List Nat) : Nat × List Nat :=
  let n := h.length - 1
  let h1 := swapAt h 0 n
  let h2 := (heapDownAux store n h1 0 n).1
  (h2.getD n 0, h2.take n)

/-- Go `New`: fresh monitor (ticker and channel halves carry no state). -/
def emptyMonitor (d : Int) : Monitor K T :=
  ⟨[], [], [], d⟩

/-- Go `watch(key, value, ttl)` at current time `now`.  Returns the
updated monitor and the boolean result.  The inner `none` arm of the
arena dereference is unreachable (a Go pointer dereference cannot
fail); it is present only to keep the function total. -/
def watch (m : Monitor K T) (k : K) (v : T) (now ttl : Int) :
    Monitor K T × Bool :=
  let expires := now + ttl
  match lookupPtr m.items k with
  | some p =>
    match m.store.get? p with
    | some it =>
      if it.value = v then (m, false)
      else
        let store' := m.store.set p
          { it with value := v, expires := expires, removed := false }
        ({ m with store := store', heap := heapFix store' m.heap 0 }, true)
    | none => (m, false)
  | none =>
    let p := m.store.length
    let store' := m.store ++ [⟨k, v, expires, false⟩]
    ({ m with
        store := store'
        heap := heapPushGo store' m.heap p
        items := (k, p) :: m.items }, true)

/-- Go `Watch(key, value)`: `watch` with the default TTL. -/
def Watch (m : Monitor K T) (k : K) (v : T) (now : Int) : Monitor K T × Bool :=
  watch m k v now m.defaultTTL

/-- Go `Get(key)`: `some (value, expires)` when the key is present and not
tombstoned, `none` otherwise (Go's zero values plus `false`). -/
def Get (m : Monitor K T) (k : K) : Option (T × Int) :=
  match lookupPtr m.items k with
  | some p =>
    match m.store.get? p with
    | some it => if it.removed then none else some (it.value, it.expires)
    | none => none
  | none => none

/-- Go `Remove(key)`: tombstone the entry through the pointer and delete the
key from the table (the inner `none` arm is again an unreachable
totality artifact). -/
def Remove (m : Monitor K T) (k : K) : Monitor K T :=
  match lookupPtr m.items k with
  | some p =>
    match m.store.get? p with
    | some it =>
      { m with
          store := m.store.set p { it with removed := true }
          items := eraseKey m.items k }
    | none => { m with items := eraseKey m.items k }
  | none => m

/-- Outcome of one iteration of the `checkExpirations` loop body:
`stop` means the loop exits (`break` or empty heap), `next` means the
loop body completed and the loop continues. -/
inductive StepOut (K T : Type) where
  | stop (m : Monitor K T) (ch : List K)
  | next (m : Monitor K T) (ch : List K)
deriving DecidableEq, Repr

/-- One iteration of the loop in Go `checkExpirations`: peek the root,
break if not yet due, otherwise pop it; if it is live and identical to
the table's entry for its key, try a non-blocking send (`ch`/`cap`
model the buffered channel): on success delete the key from the table,
on a full channel push the entry back. -/
def sweepStep (m : Monitor K T) (ch : List K) (cap : Nat) (now : Int) :
    StepOut K T :=
  match m.heap with
  | [] => .stop m ch
  | p :: _ =>
    match m.store.get? p with
    | none => .stop m ch
    | some it =>
      if now < it.expires then .stop m ch
      else
        let m1 := { m with heap := (heapPopGo m.store m.heap).2 }
        if it.removed = false ∧ lookupPtr m1.items it.key = some p then
          if ch.length < cap then
            .next { m1 with items := eraseKey m1.items it.key } (ch ++ [it.key])
          else
            .next { m1 with heap := heapPushGo m1.store m1.heap p } ch
        else .next m1 ch

/-- Iterate `sweepStep` with fuel: `some` is a completed
`checkExpirations` call with the final monitor and channel buffer,
`none` means the loop has not terminated within `fuel` iterations. -/
def sweepFuel : Nat → Monitor K T → List K → Nat → Int →
    Option (Monitor K T × List K)
  | 0, _, _, _, _ => none
  | fuel + 1, m, ch, cap, now =>
    match sweepStep m ch cap now with
    | .stop m' ch' => some (m', ch')
    | .next m' ch' => sweepFuel fuel m' ch' cap now

/-! ### Association-list (Go map) lemmas -/

theorem eraseKey_cons (q : K × Nat) (rest : List (K × Nat)) (k : K) :
    eraseKey (q :: rest) k =
      if q.1 = k then eraseKey rest k else q :: eraseKey rest k := by
  by_cases h : q.1 = k <;> simp [eraseKey, List.filter_cons, h]

theorem lookupPtr_eraseKey_self (l : List (K × Nat)) (k : K) :
    lookupPtr (eraseKey l k) k = none := by
  induction l with
  | nil => rfl
  | cons q rest ih =>
    rw [eraseKey_cons]
    by_cases h : q.1 = k
    · simpa [h] using ih
    · obtain ⟨k', p⟩ := q
      simpa [lookupPtr, h] using ih

theorem lookupPtr_eraseKey_ne (l : List (K × Nat)) (k k' : K) (h : k' ≠ k) :
    lookupPtr (eraseKey l k) k' = lookupPtr l k' := by
  induction l with
  | nil => rfl
  | cons q rest ih =>
    obtain ⟨k0, p⟩ := q
    rw [eraseKey_cons]
    by_cases h0 : k0 = k
    · have hne : ¬ k0 = k' := fun hh => h (hh ▸ h0)
      rw [if_pos h0, ih]
      simp [lookupPtr, hne]
    · rw [if_neg h0]
      simp only [lookupPtr, ih]

/-! ### Counting and swapping lemmas for the heap array -/

theorem count_set_of_get (l : List Nat) (i b c a : Nat) (hc : l.get? i = some c) :
    (l.set i b).count a + (if c = a then 1 else 0)
      = l.count a + (if b = a then 1 else 0) := by
  induction l generalizing i with
  | nil => simp at hc
  | cons x t ih =>
    cases i with
    | zero =>
      simp only [List.get?] at hc
      cases hc
      simp only [List.set, List.count_cons, beq_iff_eq]
      split <;> split <;> omega
    | succ n =>
      simp only [List.get?] at hc
      simp only [List.set, List.count_cons, beq_iff_eq]
      have := ih n hc
      split <;> omega

theorem swapAt_length (l : List Nat) (i j : Nat) :
    (swapAt l i j).length = l.length := by
  simp [swapAt]

theorem swapAt_count (l : List Nat) (i j : Nat) (hi : i < l.length)
    (hj : j < l.length) (a : Nat) : (swapAt l i j).count a = l.count a := by
  obtain ⟨xi, hxi⟩ : ∃ x, l.get? i = some x := by
    rw [List.get?_eq_getElem?, List.getElem?_eq_getElem hi]; exact ⟨_, rfl⟩
  obtain ⟨xj, hxj⟩ : ∃ x, l.get? j = some x := by
    rw [List.get?_eq_getElem?, List.getElem?_eq_getElem hj]; exact ⟨_, rfl⟩
  have hgdi : l.getD i 0 = xi := by
    rw [List.getD_eq_getElem?_getD, ← List.get?_eq_getElem?, hxi]; rfl
  have hgdj : l.getD j 0 = xj := by
    rw [List.getD_eq_getElem?_getD, ← List.get?_eq_getElem?, hxj]; rfl
  have h1 := count_set_of_get l i xj xi a hxi
  have hj2 : (l.set i xj).get? j = some xj := by
    by_cases hij : i = j
    · subst hij
      exact List.get?_set_eq_of_lt xj hi
    · rw [List.get?_set_ne _ _ hij]; exact hxj
  have h2 := count_set_of_get (l.set i xj) j xi xj a hj2
  unfold swapAt
  rw [hgdi, hgdj]
  split_ifs at h1 h2 <;> omega

theorem swapAt_perm (l : List Nat) (i j : Nat) (hi : i < l.length)
    (hj : j < l.length) : (swapAt l i j).Perm l :=
  List.perm_iff_count.mpr fun a => swapAt_count l i j hi hj a

theorem swapAt_get?_of_ge (l : List Nat) (i j n : Nat) (hi : i < n) (hj : j < n)
    (m : Nat) (hm : n ≤ m) : (swapAt l i j).get? m = l.get? m := by
  unfold swapAt
  rw [List.get?_set_ne _ _ (by omega), List.get?_set_ne _ _ (by omega)]

/-! ### Heap operation lemmas: the Go heap primitives permute the array -/

theorem heapUpAux_zero (store : List (Entry K T)) (fuel : Nat) (h : List Nat) :
    heapUpAux store fuel h 0 = h := by
  cases fuel <;> simp [heapUpAux]

theorem heapUp_zero (store : List (Entry K T)) (h : List Nat) :
    heapUp store h 0 = h :=
  heapUpAux_zero store 1 h

theorem heapUpAux_perm (store : List (Entry K T)) (fuel : Nat) :
    ∀ (h : List Nat) (j : Nat), j < h.length →
      (heapUpAux store fuel h j).Perm h := by
  induction fuel with
  | zero => intro h j _; simp [heapUpAux]
  | succ fuel ih =>
    intro h j hj
    simp only [heapUpAux]
    split
    · exact List.Perm.refl h
    · split
      · rename_i hij hl
        have hj0 : j ≠ 0 := by
          rintro rfl; exact hij rfl
        have hd := Nat.div_le_self (j - 1) 2
        have hlt : (j - 1) / 2 < j := by omega
        exact (ih _ _ (by rw [swapAt_length]; exact lt_trans hlt hj)).trans
          (swapAt_perm h _ j (lt_trans hlt hj) hj)
      · exact List.Perm.refl h

theorem heapDownAux_perm (store : List (Entry K T)) (fuel : Nat) :
    ∀ (h : List Nat) (i n : Nat), n ≤ h.length →
      ((heapDownAux store fuel h i n).1).Perm h := by
  induction fuel with
  | zero => intro h i n _; simp [heapDownAux]
  | succ fuel ih =>
    intro h i n hn
    simp only [heapDownAux]
    split
    · rename_i h1
      set J := if 2 * i + 2 < n ∧ heapLess store h (2 * i + 2) (2 * i + 1) = true
        then 2 * i + 2 else 2 * i + 1 with hJ
      have hJn : J < n := by
        rw [hJ]; split
        · rename_i hc; exact hc.1
        · exact h1
      have hin : i < n := by omega
      split
      · exact (ih _ _ _ (by rw [swapAt_length]; exact hn)).trans
          (swapAt_perm h i J (lt_of_lt_of_le hin hn) (lt_of_lt_of_le hJn hn))
      · exact List.Perm.refl h
    · exact List.Perm.refl h

theorem heapDownAux_snd_lt (store : List (Entry K T)) (fuel : Nat) :
    ∀ (h : List Nat) (i n : Nat), i ≤ (heapDownAux store fuel h i n).2 := by
  induction fuel with
  | zero => intro h i n; simp [heapDownAux]
  | succ fuel ih =>
    intro h i n
    simp only [heapDownAux]
    split
    · rename_i h1
      set J := if 2 * i + 2 < n ∧ heapLess store h (2 * i + 2) (2 * i + 1) = true
        then 2 * i + 2 else 2 * i + 1 with hJ
      have hiJ : i < J := by
        rw [hJ]; split <;> omega
      split
      · exact le_trans (le_of_lt hiJ) (ih _ _ _)
      · exact le_refl i
    · exact le_refl i

theorem heapDownAux_fst_of_not_moved (store : List (Entry K T)) (fuel : Nat) :
    ∀ (h : List Nat) (i n : Nat), (heapDownAux store fuel h i n).2 = i →
      (heapDownAux store fuel h i n).1 = h := by
  induction fuel with
  | zero => intro h i n _; simp [heapDownAux]
  | succ fuel ih =>
    intro h i n
    simp only [heapDownAux]
    split
    · rename_i h1
      set J := if 2 * i + 2 < n ∧ heapLess store h (2 * i + 2) (2 * i + 1) = true
        then 2 * i + 2 else 2 * i + 1 with hJ
      have hiJ : i < J := by
        rw [hJ]; split <;> omega
      split
      · intro hsnd
        have := heapDownAux_snd_lt store fuel (swapAt h i J) J n
        omega
      · intro _; rfl
    · intro _; rfl

theorem heapDownAux_get?_of_ge (store : List (Entry K T)) (fuel : Nat) :
    ∀ (h : List Nat) (i n idx : Nat), n ≤ idx →
      ((heapDownAux store fuel h i n).1).get? idx = h.get? idx := by
  induction fuel with
  | zero => intro h i n idx _; simp [heapDownAux]
  | succ fuel ih =>
    intro h i n idx hidx
    simp only [heapDownAux]
    split
    · rename_i h1
      set J := if 2 * i + 2 < n ∧ heapLess store h (2 * i + 2) (2 * i + 1) = true
        then 2 * i + 2 else 2 * i + 1 with hJ
      have hJn : J < n := by
        rw [hJ]; split
        · rename_i hc; exact hc.1
        · exact h1
      have hin : i < n := by omega
      split
      · rw [ih _ _ _ _ hidx]
        exact swapAt_get?_of_ge h i J n hin hJn idx hidx
      · rfl
    · rfl

theorem heapFix_zero_perm (store : List (Entry K T)) (h : List Nat) :
    (heapFix store h 0).Perm h := by
  unfold heapFix heapDown
  by_cases h0 : 0 < (heapDownAux store h.length h 0 h.length).2
  · rw [if_pos h0]
    exact heapDownAux_perm store h.length h 0 h.length le_rfl
  · rw [if_neg h0]
    have h2 : (heapDownAux store h.length h 0 h.length).2 = 0 := by omega
    rw [h2, heapUp_zero]
    exact heapDownAux_perm store h.length h 0 h.length le_rfl

theorem heapPushGo_perm (store : List (Entry K T)) (h : List Nat) (p : Nat) :
    (heapPushGo store h p).Perm (p :: h) := by
  unfold heapPushGo heapUp
  have hlen : h.length < (h ++ [p]).length := by simp
  exact (heapUpAux_perm store _ (h ++ [p]) h.length hlen).trans
    (List.perm_append_singleton p h)

theorem length_one_eq_singleton (l : List Nat) (p : Nat) (h1 : l.length = 1)
    (h2 : l.get? 0 = some p) : l = [p] := by
  match l, h1 with
  | [x], _ =>
    simp only [List.get?] at h2
    cases h2
    rfl

theorem heapPopGo_spec (store : List (Entry K T)) (p : Nat) (rest : List Nat) :
    (heapPopGo store (p :: rest)).1 = p ∧
      (heapPopGo store (p :: rest)).2.Perm rest := by
  unfold heapPopGo
  have hlen : (p :: rest).length - 1 = rest.length := by simp
  rw [hlen]
  by_cases hr : rest.length = 0
  · have : rest = [] := List.length_eq_zero.mp hr
    subst this
    constructor
    · rfl
    · rfl
  · have hn1 : 1 ≤ rest.length := by omega
    have hlt0 : 0 < (p :: rest).length := by simp
    have hltn : rest.length < (p :: rest).length := by simp
    have hperm1 : (swapAt (p :: rest) 0 rest.length).Perm (p :: rest) :=
      swapAt_perm _ 0 rest.length hlt0 hltn
    have hget1 : (swapAt (p :: rest) 0 rest.length).get? rest.length = some p := by
      unfold swapAt
      rw [List.get?_set_eq_of_lt]
      · simp [List.getD]
      · rw [List.length_set]; exact hltn
    set h2 := (heapDownAux store rest.length (swapAt (p :: rest) 0 rest.length)
      0 rest.length).1 with hh2
    have hperm2 : h2.Perm (p :: rest) :=
      (heapDownAux_perm store rest.length _ 0 rest.length
        (by rw [swapAt_length]; simp)).trans hperm1
    have hget2 : h2.get? rest.length = some p := by
      rw [hh2, heapDownAux_get?_of_ge store rest.length _ 0 rest.length
        rest.length le_rfl]
      exact hget1
    have hlen2 : h2.length = rest.length + 1 := by
      rw [hperm2.length_eq]; simp
    have hdrop : h2.drop rest.length = [p] := by
      apply length_one_eq_singleton
      · rw [List.length_drop, hlen2]; omega
      · rw [List.get?_drop]; simpa using hget2
    constructor
    · show h2.getD rest.length 0 = p
      rw [List.getD_eq_getElem?_getD, ← List.get?_eq_getElem?, hget2]; rfl
    · show (h2.take rest.length).Perm rest
      have hsplit : h2.take rest.length ++ [p] = h2 := by
        conv_rhs => rw [← List.take_append_drop rest.length h2]
        rw [hdrop]
      have hc0 : (h2.take rest.length ++ [p]).Perm (p :: rest) := by
        rw [hsplit]; exact hperm2
      have hc1 : (p :: h2.take rest.length).Perm (p :: rest) :=
        (List.perm_append_singleton p (h2.take rest.length)).symm.trans hc0
      exact hc1.cons_inv

/-! ### Invariants -/

/-- The min-heap ordering `items.Less` is meant to maintain: every parent's
expiration is at most its children's. -/
def isMinHeap (store : List (Entry K T)) (h : List Nat) : Prop :=
  ∀ i, i < h.length → ∀ j, j < h.length → (j = 2 * i + 1 ∨ j = 2 * i + 2) →
    entryExpires store (h.getD i 0) ≤ entryExpires store (h.getD j 0)

instance (store : List (Entry K T)) (h : List Nat) :
    Decidable (isMinHeap store h) := by
  unfold isMinHeap; infer_instance

/-- Structural well-formedness of a monitor, the inductive invariant tying
table, arena and heap together: heap pointers are valid and unduplicated,
every table binding points to a valid, live entry for that key that sits in
the heap, and every live heap entry is exactly the table's entry for its
key. -/
structure WF (m : Monitor K T) : Prop where
  heap_lt : ∀ p ∈ m.heap, p < m.store.length
  heap_nodup : m.heap.Nodup
  items_lt : ∀ k p, lookupPtr m.items k = some p → p < m.store.length
  items_key : ∀ k p it, lookupPtr m.items k = some p →
    m.store.get? p = some it → it.key = k
  items_live : ∀ k p it, lookupPtr m.items k = some p →
    m.store.get? p = some it → it.removed = false
  items_heap : ∀ k p, lookupPtr m.items k = some p → p ∈ m.heap
  heap_items : ∀ p ∈ m.heap, ∀ it, m.store.get? p = some it →
    it.removed = false → lookupPtr m.items it.key = some p

/-- States reachable from a fresh monitor by the public operations
(`Get` is read-only and does not change the state). -/
inductive Reachable : Monitor K T → Prop where
  | empty (d : Int) : Reachable (emptyMonitor d)
  | watch (m : Monitor K T) (k : K) (v : T) (now ttl : Int) :
      Reachable m → Reachable (watch m k v now ttl).1
  | remove (m : Monitor K T) (k : K) : Reachable m → Reachable (Remove m k)
  | sweep (m : Monitor K T) (fuel : Nat) (ch : List K) (cap : Nat) (now : Int)
      (m' : Monitor K T) (ch' : List K) : Reachable m →
      sweepFuel fuel m ch cap now = some (m', ch') → Reachable m'

/-- The monitor component of a step outcome. -/
def StepOut.monitor : StepOut K T → Monitor K T
  | .stop m _ => m
  | .next m _ => m

theorem lookupPtr_cons (k0 : K) (p0 : Nat) (rest : List (K × Nat)) (k : K) :
    lookupPtr ((k0, p0) :: rest) k =
      if k0 = k then some p0 else lookupPtr rest k := rfl

theorem WF.get_of_lookup {m : Monitor K T} (hwf : WF m) {k : K} {p : Nat}
    (hk : lookupPtr m.items k = some p) :
    ∃ it, m.store.get? p = some it ∧ it.key = k ∧ it.removed = false := by
  have hlt := hwf.items_lt k p hk
  obtain ⟨it, hit⟩ : ∃ it, m.store.get? p = some it := by
    rw [List.get?_eq_getElem?, List.getElem?_eq_getElem hlt]; exact ⟨_, rfl⟩
  exact ⟨it, hit, hwf.items_key k p it hk hit, hwf.items_live k p it hk hit⟩

theorem WF.lookup_inj {m : Monitor K T} (hwf : WF m) {k1 k2 : K} {p : Nat}
    (h1 : lookupPtr m.items k1 = some p) (h2 : lookupPtr m.items k2 = some p) :
    k1 = k2 := by
  obtain ⟨it, hit, hkey, -⟩ := hwf.get_of_lookup h1
  have := hwf.items_key k2 p it h2 hit
  rw [← hkey, this]

/-- `WF` cares about the heap only through membership and duplication, so it
transports along permutations of the heap array. -/
theorem WF.heap_perm {m : Monitor K T} (hwf : WF m) (h' : List Nat)
    (hp : h'.Perm m.heap) : WF { m with heap := h' } := by
  refine ⟨?_, ?_, hwf.items_lt, hwf.items_key, hwf.items_live, ?_, ?_⟩
  · intro p hmem
    exact hwf.heap_lt p (hp.mem_iff.mp hmem)
  · exact hp.nodup_iff.mpr hwf.heap_nodup
  · intro k p hk
    exact hp.mem_iff.mpr (hwf.items_heap k p hk)
  · intro p hmem it hit hrem
    exact hwf.heap_items p (hp.mem_iff.mp hmem) it hit hrem

/-! ### Preservation of `WF` by the monitor operations -/

theorem WF_watch (m : Monitor K T) (k : K) (v : T) (now ttl : Int)
    (hwf : WF m) : WF (watch m k v now ttl).1 := by
  cases hlk : lookupPtr m.items k with
  | none =>
    simp only [watch, hlk]
    have hlen : (m.store ++ [(⟨k, v, now + ttl, false⟩ : Entry K T)]).length
        = m.store.length + 1 := by simp
    have hget_old : ∀ q, q < m.store.length →
        (m.store ++ [(⟨k, v, now + ttl, false⟩ : Entry K T)]).get? q
          = m.store.get? q := fun q hq => List.get?_append hq
    have hget_new : (m.store ++ [(⟨k, v, now + ttl, false⟩ : Entry K T)]).get?
        m.store.length = some ⟨k, v, now + ttl, false⟩ :=
      List.get?_concat_length m.store _
    have hfresh : m.store.length ∉ m.heap := fun hmem =>
      absurd (hwf.heap_lt _ hmem) (lt_irrefl _)
    have h1 : WF { m with
        store := m.store ++ [(⟨k, v, now + ttl, false⟩ : Entry K T)]
        heap := m.store.length :: m.heap
        items := (k, m.store.length) :: m.items } := by
      refine ⟨?_, ?_, ?_, ?_, ?_, ?_, ?_⟩
      · intro q hq
        rcases List.mem_cons.mp hq with h | h
        · rw [h, hlen]; omega
        · rw [hlen]; exact lt_trans (hwf.heap_lt q h) (by omega)
      · exact List.nodup_cons.mpr ⟨hfresh, hwf.heap_nodup⟩
      · intro k' p' h'
        rw [lookupPtr_cons] at h'
        by_cases hk' : k = k'
        · rw [if_pos hk'] at h'
          cases h'; rw [hlen]; omega
        · rw [if_neg hk'] at h'
          rw [hlen]; exact lt_trans (hwf.items_lt k' p' h') (by omega)
      · intro k' p' it2 h' hit2
        rw [lookupPtr_cons] at h'
        by_cases hk' : k = k'
        · rw [if_pos hk'] at h'
          cases h'
          rw [hget_new] at hit2
          cases hit2
          exact hk'
        · rw [if_neg hk'] at h'
          rw [hget_old p' (hwf.items_lt k' p' h')] at hit2
          exact hwf.items_key k' p' it2 h' hit2
      · intro k' p' it2 h' hit2
        rw [lookupPtr_cons] at h'
        by_cases hk' : k = k'
        · rw [if_pos hk'] at h'
          cases h'
          rw [hget_new] at hit2
          cases hit2
          rfl
        · rw [if_neg hk'] at h'
          rw [hget_old p' (hwf.items_lt k' p' h')] at hit2
          exact hwf.items_live k' p' it2 h' hit2
      · intro k' p' h'
        rw [lookupPtr_cons] at h'
        by_cases hk' : k = k'
        · rw [if_pos hk'] at h'
          cases h'
          exact List.mem_cons_self _ _
        · rw [if_neg hk'] at h'
          exact List.mem_cons_of_mem _ (hwf.items_heap k' p' h')
      · intro q hq it2 hit2 hrem
        rcases List.mem_cons.mp hq with h | h
        · subst h
          rw [hget_new] at hit2
          cases hit2
          rw [lookupPtr_cons, if_pos rfl]
        · rw [hget_old q (hwf.heap_lt q h)] at hit2
          have hold := hwf.heap_items q h it2 hit2 hrem
          rw [lookupPtr_cons]
          have hk2 : ¬ k = it2.key := fun hh => by
            rw [← hh, hlk] at hold; exact Option.noConfusion hold
          rw [if_neg hk2]
          exact hold
    exact h1.heap_perm _ (heapPushGo_perm _ m.heap m.store.length)
  | some p =>
    cases hsp : m.store.get? p with
    | none => simp only [watch, hlk, hsp]; exact hwf
    | some it =>
      by_cases hv : it.value = v
      · simp only [watch, hlk, hsp, if_pos hv]; exact hwf
      · simp only [watch, hlk, hsp, if_neg hv]
        have hp_lt : p < m.store.length := hwf.items_lt k p hlk
        have hkey : it.key = k := hwf.items_key k p it hlk hsp
        have hrem : it.removed = false := hwf.items_live k p it hlk hsp
        have hget_p : (m.store.set p
            { it with value := v, expires := now + ttl, removed := false }).get? p
            = some { it with value := v, expires := now + ttl, removed := false } :=
          List.get?_set_eq_of_lt _ hp_lt
        have hget_ne : ∀ q, q ≠ p →
            (m.store.set p
              { it with value := v, expires := now + ttl, removed := false }).get? q
              = m.store.get? q := fun q hq =>
          List.get?_set_ne _ _ (fun hh => hq hh.symm)
        have h1 : WF { m with store := (m.store.set p
            { it with value := v, expires := now + ttl, removed := false }) } := by
          refine ⟨?_, hwf.heap_nodup, ?_, ?_, ?_, hwf.items_heap, ?_⟩
          · intro q hq
            rw [List.length_set]
            exact hwf.heap_lt q hq
          · intro k' p' h'
            rw [List.length_set]
            exact hwf.items_lt k' p' h'
          · intro k' p' it2 h' hit2
            by_cases hpp : p' = p
            · subst hpp
              rw [hget_p] at hit2
              cases hit2
              have : k' = k := hwf.lookup_inj h' hlk
              simpa [this] using hkey
            · rw [hget_ne p' hpp] at hit2
              exact hwf.items_key k' p' it2 h' hit2
          · intro k' p' it2 h' hit2
            by_cases hpp : p' = p
            · subst hpp
              rw [hget_p] at hit2
              cases hit2
              rfl
            · rw [hget_ne p' hpp] at hit2
              exact hwf.items_live k' p' it2 h' hit2
          · intro q hq it2 hit2 hrem2
            by_cases hpp : q = p
            · subst hpp
              rw [hget_p] at hit2
              cases hit2
              have hold := hwf.heap_items q hq it hsp hrem
              simpa [hkey] using hold
            · rw [hget_ne q hpp] at hit2
              exact hwf.heap_items q hq it2 hit2 hrem2
        exact h1.heap_perm _ (heapFix_zero_perm _ m.heap)

theorem WF_Remove (m : Monitor K T) (k : K) (hwf : WF m) : WF (Remove m k) := by
  cases hlk : lookupPtr m.items k with
  | none => simp only [Remove, hlk]; exact hwf
  | some p =>
    obtain ⟨it, hsp, hkey, hrem⟩ := hwf.get_of_lookup hlk
    simp only [Remove, hlk, hsp]
    have hp_lt : p < m.store.length := hwf.items_lt k p hlk
    have hget_p : (m.store.set p { it with removed := true }).get? p
        = some { it with removed := true } := List.get?_set_eq_of_lt _ hp_lt
    have hget_ne : ∀ q, q ≠ p →
        (m.store.set p { it with removed := true }).get? q = m.store.get? q :=
      fun q hq => List.get?_set_ne _ _ (fun hh => hq hh.symm)
    refine ⟨?_, hwf.heap_nodup, ?_, ?_, ?_, ?_, ?_⟩
    · intro q hq
      rw [List.length_set]
      exact hwf.heap_lt q hq
    · intro k' p' h'
      rw [List.length_set]
      by_cases hk' : k' = k
      · rw [hk', lookupPtr_eraseKey_self] at h'
        exact absurd h' (by simp)
      · rw [lookupPtr_eraseKey_ne m.items k k' hk'] at h'
        exact hwf.items_lt k' p' h'
    · intro k' p' it2 h' hit2
      by_cases hk' : k' = k
      · rw [hk', lookupPtr_eraseKey_self] at h'
        exact absurd h' (by simp)
      · rw [lookupPtr_eraseKey_ne m.items k k' hk'] at h'
        have hpp : p' ≠ p := fun hh =>
          hk' (hwf.lookup_inj (hh ▸ h') hlk)
        rw [hget_ne p' hpp] at hit2
        exact hwf.items_key k' p' it2 h' hit2
    · intro k' p' it2 h' hit2
      by_cases hk' : k' = k
      · rw [hk', lookupPtr_eraseKey_self] at h'
        exact absurd h' (by simp)
      · rw [lookupPtr_eraseKey_ne m.items k k' hk'] at h'
        have hpp : p' ≠ p := fun hh =>
          hk' (hwf.lookup_inj (hh ▸ h') hlk)
        rw [hget_ne p' hpp] at hit2
        exact hwf.items_live k' p' it2 h' hit2
    · intro k' p' h'
      by_cases hk' : k' = k
      · rw [hk', lookupPtr_eraseKey_self] at h'
        exact absurd h' (by simp)
      · rw [lookupPtr_eraseKey_ne m.items k k' hk'] at h'
        exact hwf.items_heap k' p' h'
    · intro q hq it2 hit2 hrem2
      by_cases hpp : q = p
      · subst hpp
        rw [hget_p] at hit2
        cases hit2
        simp at hrem2
      · rw [hget_ne q hpp] at hit2
        have hold := hwf.heap_items q hq it2 hit2 hrem2
        have hk2 : it2.key ≠ k := fun hh => hpp (by
          rw [hh] at hold
          cases hold.symm.trans hlk
          rfl)
        rw [lookupPtr_eraseKey_ne m.items k it2.key hk2]
        exact hold

theorem WF_sweepStep (m : Monitor K T) (ch : List K) (cap : Nat) (now : Int)
    (hwf : WF m) : WF (sweepStep m ch cap now).monitor := by
  cases hh : m.heap with
  | nil => simp only [sweepStep, hh, StepOut.monitor]; exact hwf
  | cons p rest =>
    cases hsp : m.store.get? p with
    | none => simp only [sweepStep, hh, hsp, StepOut.monitor]; exact hwf
    | some it =>
      by_cases hdue : now < it.expires
      · simp only [sweepStep, hh, hsp, if_pos hdue, StepOut.monitor]; exact hwf
      · have hpop := heapPopGo_spec m.store p rest
        have hperm : (heapPopGo m.store (p :: rest)).2.Perm rest := hpop.2
        have hp_notin_rest : p ∉ rest := by
          have hd := hwf.heap_nodup; rw [hh] at hd
          exact (List.nodup_cons.mp hd).1
        have hrest_nodup : rest.Nodup := by
          have hd := hwf.heap_nodup; rw [hh] at hd
          exact (List.nodup_cons.mp hd).2
        have hmem_heap : ∀ q ∈ (heapPopGo m.store (p :: rest)).2, q ∈ m.heap := by
          intro q hq
          rw [hh]
          exact List.mem_cons_of_mem _ (hperm.mem_iff.mp hq)
        by_cases hcond : it.removed = false ∧ lookupPtr m.items it.key = some p
        · by_cases hch : ch.length < cap
          · -- delivered: key deleted from the table, entry gone from the heap
            simp only [sweepStep, hh, hsp, if_neg hdue, if_pos hcond, if_pos hch,
              StepOut.monitor]
            refine ⟨?_, hperm.nodup_iff.mpr hrest_nodup, ?_, ?_, ?_, ?_, ?_⟩
            · intro q hq
              exact hwf.heap_lt q (hmem_heap q hq)
            · intro k' p' h'
              by_cases hk' : k' = it.key
              · rw [hk', lookupPtr_eraseKey_self] at h'
                exact absurd h' (by simp)
              · rw [lookupPtr_eraseKey_ne m.items it.key k' hk'] at h'
                exact hwf.items_lt k' p' h'
            · intro k' p' it2 h' hit2
              by_cases hk' : k' = it.key
              · rw [hk', lookupPtr_eraseKey_self] at h'
                exact absurd h' (by simp)
              · rw [lookupPtr_eraseKey_ne m.items it.key k' hk'] at h'
                exact hwf.items_key k' p' it2 h' hit2
            · intro k' p' it2 h' hit2
              by_cases hk' : k' = it.key
              · rw [hk', lookupPtr_eraseKey_self] at h'
                exact absurd h' (by simp)
              · rw [lookupPtr_eraseKey_ne m.items it.key k' hk'] at h'
                exact hwf.items_live k' p' it2 h' hit2
            · intro k' p' h'
              by_cases hk' : k' = it.key
              · rw [hk', lookupPtr_eraseKey_self] at h'
                exact absurd h' (by simp)
              · rw [lookupPtr_eraseKey_ne m.items it.key k' hk'] at h'
                have hpmem := hwf.items_heap k' p' h'
                rw [hh] at hpmem
                rcases List.mem_cons.mp hpmem with hpp | hpp
                · exact absurd (hwf.lookup_inj (hpp ▸ h') hcond.2) hk'
                · exact hperm.mem_iff.mpr hpp
            · intro q hq it2 hit2 hrem2
              have hold := hwf.heap_items q (hmem_heap q hq) it2 hit2 hrem2
              have hqp : q ≠ p := fun hqq => hp_notin_rest
                (hqq ▸ hperm.mem_iff.mp hq)
              have hk2 : it2.key ≠ it.key := fun hkk => hqp (by
                rw [hkk, hcond.2] at hold
                cases hold
                rfl)
              rw [lookupPtr_eraseKey_ne m.items it.key it2.key hk2]
              exact hold
          · -- channel full: the entry is pushed back, net heap permutation
            simp only [sweepStep, hh, hsp, if_neg hdue, if_pos hcond, if_neg hch,
              StepOut.monitor]
            have hback : (heapPushGo m.store (heapPopGo m.store (p :: rest)).2
                p).Perm m.heap := by
              rw [hh]
              exact (heapPushGo_perm _ _ _).trans (hperm.cons p)
            exact hwf.heap_perm _ hback
        · -- stale entry: discarded, everything else untouched
          simp only [sweepStep, hh, hsp, if_neg hdue, if_neg hcond,
            StepOut.monitor]
          refine ⟨?_, hperm.nodup_iff.mpr hrest_nodup, hwf.items_lt,
            hwf.items_key, hwf.items_live, ?_, ?_⟩
          · intro q hq
            exact hwf.heap_lt q (hmem_heap q hq)
          · intro k' p' h'
            have hpmem := hwf.items_heap k' p' h'
            rw [hh] at hpmem
            rcases List.mem_cons.mp hpmem with hpp | hpp
            · subst hpp
              obtain ⟨it3, hit3, hkey3, hrem3⟩ := hwf.get_of_lookup h'
              rw [hsp] at hit3
              cases hit3
              exact absurd ⟨hrem3, hkey3.symm ▸ h'⟩ hcond
            · exact hperm.mem_iff.mpr hpp
          · intro q hq it2 hit2 hrem2
            exact hwf.heap_items q (hmem_heap q hq) it2 hit2 hrem2

theorem WF_sweepFuel (fuel : Nat) :
    ∀ (m : Monitor K T) (ch : List K) (cap : Nat) (now : Int)
      (m' : Monitor K T) (ch' : List K),
      sweepFuel fuel m ch cap now = some (m', ch') → WF m → WF m' := by
  induction fuel with
  | zero => intro m ch cap now m' ch' h _; exact absurd h (by simp [sweepFuel])
  | succ fuel ih =>
    intro m ch cap now m' ch' h hwf
    rw [sweepFuel] at h
    cases hstep : sweepStep m ch cap now with
    | stop m1 ch1 =>
      rw [hstep] at h
      cases h
      have := WF_sweepStep m ch cap now hwf
      rw [hstep] at this
      exact this
    | next m1 ch1 =>
      rw [hstep] at h
      have hwf1 : WF m1 := by
        have := WF_sweepStep m ch cap now hwf
        rw [hstep] at this
        exact this
      exact ih m1 ch1 cap now m' ch' h hwf1

theorem WF_empty (d : Int) : WF (emptyMonitor (K := K) (T := T) d) := by
  refine ⟨?_, ?_, ?_, ?_, ?_, ?_, ?_⟩ <;>
    simp [emptyMonitor, lookupPtr]

theorem reachable_WF {m : Monitor K T} (h : Reachable m) : WF m := by
  induction h with
  | empty d => exact WF_empty d
  | watch m k v now ttl _ ih => exact WF_watch m k v now ttl ih
  | remove m k _ ih => exact WF_Remove m k ih
  | sweep m fuel ch cap now m' ch' _ hs ih =>
    exact WF_sweepFuel fuel m ch cap now m' ch' hs ih

/-! ### What a sweep can send, and what it leaves untouched -/

/-- The channel-buffer component of a step outcome. -/
def StepOut.chan : StepOut K T → List K
  | .stop _ ch => ch
  | .next _ ch => ch

theorem lookupPtr_eraseKey_some (l : List (K × Nat)) (k0 x : K) (p : Nat)
    (h : lookupPtr (eraseKey l k0) x = some p) : lookupPtr l x = some p := by
  by_cases hx : x = k0
  · rw [hx, lookupPtr_eraseKey_self] at h
    exact absurd h (by simp)
  · rw [lookupPtr_eraseKey_ne l k0 x hx] at h
    exact h

theorem lookupPtr_eraseKey_none (l : List (K × Nat)) (k0 x : K)
    (h : lookupPtr l x = none) : lookupPtr (eraseKey l k0) x = none := by
  by_cases hx : x = k0
  · rw [hx]; exact lookupPtr_eraseKey_self l k0
  · rw [lookupPtr_eraseKey_ne l k0 x hx]; exact h

/-- The sweep never touches the arena: entries are popped, requeued or
deleted from the table, but their fields are not written. -/
theorem sweepStep_store (m : Monitor K T) (ch : List K) (cap : Nat)
    (now : Int) : (sweepStep m ch cap now).monitor.store = m.store := by
  cases hh : m.heap with
  | nil => simp only [sweepStep, hh, StepOut.monitor]
  | cons p rest =>
    cases hsp : m.store.get? p with
    | none => simp only [sweepStep, hh, hsp, StepOut.monitor]
    | some it =>
      by_cases hdue : now < it.expires
      · simp only [sweepStep, hh, hsp, if_pos hdue, StepOut.monitor]
      · by_cases hcond : it.removed = false ∧ lookupPtr m.items it.key = some p
        · by_cases hch : ch.length < cap
          · simp only [sweepStep, hh, hsp, if_neg hdue, if_pos hcond, if_pos hch,
              StepOut.monitor]
          · simp only [sweepStep, hh, hsp, if_neg hdue, if_pos hcond, if_neg hch,
              StepOut.monitor]
        · simp only [sweepStep, hh, hsp, if_neg hdue, if_neg hcond, StepOut.monitor]

/-- One loop iteration either leaves the channel buffer and table alone, or
sends exactly one key: the key of a live, current (pointer-identical) entry
that is due (`expires ≤ now`), deleting exactly that key from the table. -/
theorem sweepStep_cases (m : Monitor K T) (ch : List K) (cap : Nat)
    (now : Int) :
    ((sweepStep m ch cap now).chan = ch ∧
      (sweepStep m ch cap now).monitor.items = m.items) ∨
    ∃ p it, m.store.get? p = some it ∧
      lookupPtr m.items it.key = some p ∧ it.removed = false ∧
      it.expires ≤ now ∧
      (sweepStep m ch cap now).chan = ch ++ [it.key] ∧
      (sweepStep m ch cap now).monitor.items = eraseKey m.items it.key := by
  cases hh : m.heap with
  | nil =>
    left
    simp only [sweepStep, hh, StepOut.monitor, StepOut.chan]
    exact ⟨trivial, trivial⟩
  | cons p rest =>
    cases hsp : m.store.get? p with
    | none =>
      left
      simp only [sweepStep, hh, hsp, StepOut.monitor, StepOut.chan]
      exact ⟨trivial, trivial⟩
    | some it =>
      by_cases hdue : now < it.expires
      · left
        simp only [sweepStep, hh, hsp, if_pos hdue, StepOut.monitor, StepOut.chan]
        exact ⟨trivial, trivial⟩
      · by_cases hcond : it.removed = false ∧ lookupPtr m.items it.key = some p
        · by_cases hch : ch.length < cap
          · right
            refine ⟨p, it, hsp, hcond.2, hcond.1, not_lt.mp hdue, ?_, ?_⟩ <;>
              simp only [sweepStep, hh, hsp, if_neg hdue, if_pos hcond, if_pos hch,
                StepOut.monitor, StepOut.chan]
          · left
            simp only [sweepStep, hh, hsp, if_neg hdue, if_pos hcond, if_neg hch,
              StepOut.monitor, StepOut.chan]
            exact ⟨trivial, trivial⟩
        · left
          simp only [sweepStep, hh, hsp, if_neg hdue, if_neg hcond,
            StepOut.monitor, StepOut.chan]
          exact ⟨trivial, trivial⟩

/-- Keys appended to the channel during a completed sweep were due with
respect to the sweep time: each such key had, in the starting state, a
current live arena entry with `expires ≤ now`.  Moreover the sweep never
resurrects a table binding and never writes the arena. -/
theorem sweepFuel_sent (fuel : Nat) :
    ∀ (m : Monitor K T) (ch : List K) (cap : Nat) (now : Int)
      (m' : Monitor K T) (ch' : List K),
      sweepFuel fuel m ch cap now = some (m', ch') →
      (∀ x ∈ ch', x ∈ ch ∨ ∃ p it, lookupPtr m.items x = some p ∧
        m.store.get? p = some it ∧ it.key = x ∧ it.removed = false ∧
        it.expires ≤ now) ∧
      (∀ x, lookupPtr m.items x = none → lookupPtr m'.items x = none) ∧
      m'.store = m.store := by
  induction fuel with
  | zero =>
    intro m ch cap now m' ch' h
    exact absurd h (by simp [sweepFuel])
  | succ fuel ih =>
    intro m ch cap now m' ch' h
    rw [sweepFuel] at h
    cases hstep : sweepStep m ch cap now with
    | stop m1 ch1 =>
      rw [hstep] at h
      cases h
      have hc := sweepStep_cases m ch cap now
      rw [hstep] at hc
      have hst := sweepStep_store m ch cap now
      rw [hstep] at hst
      rcases hc with ⟨hch, hit⟩ | ⟨p, it, hsp, hid, hrem, hdue, hch, hit⟩
      · simp only [StepOut.chan, StepOut.monitor] at hch hit hst
        refine ⟨fun x hx => Or.inl (hch ▸ hx), ?_, hst⟩
        intro x hx
        rw [hit]; exact hx
      · simp only [StepOut.chan, StepOut.monitor] at hch hit hst
        refine ⟨?_, ?_, hst⟩
        · intro x hx
          rw [hch] at hx
          rcases List.mem_append.mp hx with hx | hx
          · exact Or.inl hx
          · exact Or.inr ⟨p, it, by simpa [List.mem_singleton.mp hx] using hid,
              hsp, by rw [List.mem_singleton.mp hx], hrem, hdue⟩
        · intro x hx
          rw [hit]
          exact lookupPtr_eraseKey_none m.items it.key x hx
    | next m1 ch1 =>
      rw [hstep] at h
      obtain ⟨hsent, hnone, hstore⟩ := ih m1 ch1 cap now m' ch' h
      have hc := sweepStep_cases m ch cap now
      rw [hstep] at hc
      have hst := sweepStep_store m ch cap now
      rw [hstep] at hst
      simp only [StepOut.chan, StepOut.monitor] at hc hst
      rcases hc with ⟨hch, hit⟩ | ⟨p, it, hsp, hid, hrem, hdue, hch, hit⟩
      · subst hch
        refine ⟨?_, ?_, by rw [hstore, hst]⟩
        · intro x hx
          rcases hsent x hx with hx' | ⟨p, it, hl, hg, hk, hr, hd⟩
          · exact Or.inl hx'
          · rw [hit] at hl
            rw [hst] at hg
            exact Or.inr ⟨p, it, hl, hg, hk, hr, hd⟩
        · intro x hx
          exact hnone x (by rw [hit]; exact hx)
      · refine ⟨?_, ?_, by rw [hstore, hst]⟩
        · intro x hx
          rcases hsent x hx with hx' | ⟨p', it', hl, hg, hk, hr, hd⟩
          · rw [hch] at hx'
            rcases List.mem_append.mp hx' with hx'' | hx''
            · exact Or.inl hx''
            · exact Or.inr ⟨p, it, by simpa [List.mem_singleton.mp hx''] using hid,
                hsp, by rw [List.mem_singleton.mp hx''], hrem, hdue⟩
          · rw [hit] at hl
            rw [hst] at hg
            exact Or.inr ⟨p', it',
              lookupPtr_eraseKey_some m.items it.key x p' hl, hg, hk, hr, hd⟩
        · intro x hx
          refine hnone x ?_
          rw [hit]
          exact lookupPtr_eraseKey_none m.items it.key x hx

/-- After `Remove`, the key no longer resolves in the table. -/
theorem lookupPtr_Remove_self (m : Monitor K T) (k : K) :
    lookupPtr (Remove m k).items k = none := by
  cases hlk : lookupPtr m.items k with
  | none => simp only [Remove, hlk]
  | some p =>
    cases hsp : m.store.get? p with
    | none => simp only [Remove, hlk, hsp]; exact lookupPtr_eraseKey_self _ _
    | some it => simp only [Remove, hlk, hsp]; exact lookupPtr_eraseKey_self _ _

theorem Get_eq_none_of_lookup_none (m : Monitor K T) (k : K)
    (h : lookupPtr m.items k = none) : Get m k = none := by
  simp only [Get, h]

/-! ### Single-entry scenario computations -/

theorem sweepFuel_of_stop (fuel : Nat) (m : Monitor K T) (ch : List K)
    (cap : Nat) (now : Int) (m' : Monitor K T) (ch' : List K)
    (h : sweepStep m ch cap now = .stop m' ch') :
    sweepFuel (fuel + 1) m ch cap now = some (m', ch') := by
  rw [sweepFuel, h]

/-- A sweep breaks immediately when the root of the heap is not yet due. -/
theorem sweepStep_not_due (m : Monitor K T) (ch : List K) (cap : Nat)
    (now : Int) (p : Nat) (rest : List Nat) (it : Entry K T)
    (hh : m.heap = p :: rest) (hsp : m.store.get? p = some it)
    (hdue : now < it.expires) : sweepStep m ch cap now = .stop m ch := by
  simp only [sweepStep, hh, hsp, if_pos hdue]

/-- With a full channel and a single due, live, current entry, one loop
iteration of `checkExpirations` pops the entry, fails the send, pushes the
entry back and continues — reproducing the starting state exactly. -/
theorem sweepStep_requeue_singleton (m : Monitor K T) (ch : List K)
    (cap : Nat) (now : Int) (p : Nat) (it : Entry K T)
    (hh : m.heap = [p]) (hsp : m.store.get? p = some it)
    (hdue : it.expires ≤ now) (hrem : it.removed = false)
    (hid : lookupPtr m.items it.key = some p)
    (hfull : ¬ ch.length < cap) :
    sweepStep m ch cap now = .next m ch := by
  have hpop : heapPopGo m.store [p] = (p, []) := rfl
  have hpush : heapPushGo m.store [] p = [p] := rfl
  simp only [sweepStep, hh, hsp, if_neg (not_lt.mpr hdue), hpop, hpush,
    if_pos (And.intro hrem hid), if_neg hfull]
  rw [← hh]

/-- Consequently, when the channel stays full, `checkExpirations` loops
forever on such a state: no amount of fuel completes the sweep. -/
theorem sweepFuel_none_of_requeue_singleton (m : Monitor K T) (ch : List K)
    (cap : Nat) (now : Int) (p : Nat) (it : Entry K T)
    (hh : m.heap = [p]) (hsp : m.store.get? p = some it)
    (hdue : it.expires ≤ now) (hrem : it.removed = false)
    (hid : lookupPtr m.items it.key = some p)
    (hfull : ¬ ch.length < cap) :
    ∀ fuel, sweepFuel fuel m ch cap now = none := by
  intro fuel
  induction fuel with
  | zero => rfl
  | succ fuel ih =>
    rw [sweepFuel,
      sweepStep_requeue_singleton m ch cap now p it hh hsp hdue hrem hid hfull]
    exact ih

/-- With available channel capacity and a single due, live, current entry,
one loop iteration sends the key and deletes it from the table. -/
theorem sweepStep_send_singleton (m : Monitor K T) (ch : List K)
    (cap : Nat) (now : Int) (p : Nat) (it : Entry K T)
    (hh : m.heap = [p]) (hsp : m.store.get? p = some it)
    (hdue : it.expires ≤ now) (hrem : it.removed = false)
    (hid : lookupPtr m.items it.key = some p)
    (hcap : ch.length < cap) :
    sweepStep m ch cap now =
      .next { m with heap := [], items := eraseKey m.items it.key }
        (ch ++ [it.key]) := by
  have hpop : heapPopGo m.store [p] = (p, []) := rfl
  simp only [sweepStep, hh, hsp, if_neg (not_lt.mpr hdue), hpop,
    if_pos (And.intro hrem hid), if_pos hcap]

/-- `Fix(h, 0)` on a one-slot heap is the identity. -/
theorem heapFix_singleton (store : List (Entry K T)) (p : Nat) :
    heapFix store [p] 0 = [p] := by
  have h1 : heapDown store [p] 0 ([p] : List Nat).length = ([p], 0) := by rfl
  simp only [heapFix, h1, lt_self_iff_false, if_false, heapUp_zero]

/-- Watching a fresh key in a fresh monitor: one entry, one heap slot,
one table binding. -/
theorem watch_emptyMonitor (d : Int) (k : K) (v : T) (t0 ttl : Int) :
    watch (emptyMonitor d) k v t0 ttl =
      (⟨[⟨k, v, t0 + ttl, false⟩], [0], [(k, 0)], d⟩, true) := by
  have hlk : lookupPtr (emptyMonitor (K := K) (T := T) d).items k = none := rfl
  simp only [watch, hlk, emptyMonitor]
  rfl

/-- Refreshing the only key of a single-entry monitor with a different
value: the entry is rewritten in place, the heap and table are unchanged. -/
theorem watch_refresh_singleton (k : K) (v1 v2 : T) (e0 t1 ttl d : Int)
    (hv : ¬ v1 = v2) :
    watch (⟨[⟨k, v1, e0, false⟩], [0], [(k, 0)], d⟩ : Monitor K T) k v2 t1 ttl
      = (⟨[⟨k, v2, t1 + ttl, false⟩], [0], [(k, 0)], d⟩, true) := by
  have hl : lookupPtr [(k, (0 : Nat))] k = some 0 := by simp [lookupPtr]
  have hg : ([(⟨k, v1, e0, false⟩ : Entry K T)]).get? 0
      = some ⟨k, v1, e0, false⟩ := rfl
  have hset : ([(⟨k, v1, e0, false⟩ : Entry K T)]).set 0
      ⟨k, v2, t1 + ttl, false⟩ = [⟨k, v2, t1 + ttl, false⟩] := rfl
  simp only [watch, hl, hg, if_neg hv, hset, heapFix_singleton]

/-! ### Claim-level statements -/

/-- `Watch` on a fresh monitor (public entry point, default TTL). -/
theorem Watch_emptyMonitor (d : Int) (k : K) (v : T) (t0 : Int) :
    Watch (emptyMonitor d) k v t0 =
      (⟨[⟨k, v, t0 + d, false⟩], [0], [(k, 0)], d⟩, true) := by
  have hd : (emptyMonitor (K := K) (T := T) d).defaultTTL = d := rfl
  simp only [Watch, hd, watch_emptyMonitor]

/-- `Watch` refreshing the only key of a single-entry monitor. -/
theorem Watch_refresh_singleton (k : K) (v1 v2 : T) (e0 t1 d : Int)
    (hv : ¬ v1 = v2) :
    Watch (⟨[⟨k, v1, e0, false⟩], [0], [(k, 0)], d⟩ : Monitor K T) k v2 t1 =
      (⟨[⟨k, v2, t1 + d, false⟩], [0], [(k, 0)], d⟩, true) := by
  simp only [Watch]
  exact watch_refresh_singleton k v1 v2 e0 t1 d d hv

/-- The invariant claimed by C9: every table binding points to an entry for
that key occurring exactly once in the heap, and every live heap entry is
pointer-identical to the table's current entry for its key. -/
def TableHeapInv (m : Monitor K T) : Prop :=
  (∀ k p, lookupPtr m.items k = some p → m.heap.count p = 1 ∧
    ∃ it, m.store.get? p = some it ∧ it.key = k) ∧
  (∀ p ∈ m.heap, ∀ it, m.store.get? p = some it → it.removed = false →
    lookupPtr m.items it.key = some p)

/-- The invariant claimed by C10: no tombstoned entry is ever reachable
through the table. -/
def TableLiveInv (m : Monitor K T) : Prop :=
  ∀ k p it, lookupPtr m.items k = some p → m.store.get? p = some it →
    it.removed = false

/-- The state produced by `watch(7, 0)` with TTL 0 at time 0: a single
entry that is due at any time `now ≥ 0`. -/
def spinMonitor : Monitor Nat Nat :=
  ⟨[⟨7, 0, 0, false⟩], [0], [(7, 0)], 0⟩

/-- C1: the claim says that when the non-blocking send fails on a full
channel, the popped entry is pushed back unchanged and the sweep stops for
this tick, bounding the work by the number of due entries.  The code pushes
the entry back but does not stop: with a full channel (capacity 0, empty
buffer never accepts) and a single due live entry — a state reached by one
`watch` call — one loop iteration reproduces the starting state exactly, so
the same entry is retried and `checkExpirations` never terminates: no
amount of fuel completes the sweep. -/
theorem C1_full_channel_requeue_spins_forever :
    (watch (emptyMonitor 0) 7 0 0 0).1 = spinMonitor ∧
    sweepStep spinMonitor [] 0 0 = StepOut.next spinMonitor [] ∧
    ∀ fuel, sweepFuel fuel spinMonitor [] 0 0 = none := by
  refine ⟨by rw [watch_emptyMonitor]; rfl, ?_, ?_⟩
  · exact sweepStep_requeue_singleton spinMonitor [] 0 0 0 ⟨7, 0, 0, false⟩
      rfl rfl (by decide) rfl rfl (by decide)
  · exact sweepFuel_none_of_requeue_singleton spinMonitor [] 0 0 0
      ⟨7, 0, 0, false⟩ rfl rfl (by decide) rfl rfl (by decide)

/-- Five entries with expirations 1..5 inserted in order: the heap is
`[0, 1, 2, 3, 4]` in arena order and satisfies the min-heap property. -/
def c2Monitor : Monitor Nat Nat :=
  (watch (watch (watch (watch (watch (emptyMonitor 0) 10 0 1 0).1
    11 0 2 0).1 12 0 3 0).1 13 0 4 0).1 14 0 5 0).1

/-- C2: the claim says that after refreshing a present key with a different
value the queue again satisfies the min-heap ordering.  The code calls
`heap.Fix(&m.heap, 0)` — index 0 — regardless of where the refreshed entry
sits in the heap.  Refreshing key 11, which sits at heap index 1, to a
later expiration (100) leaves the heap array untouched at positions 1..4,
so entry 11 (expires 100) stays above its child at index 3 (expires 4) and
the min-heap ordering is violated, even though it held before the call and
the call reports a successful update. -/
theorem C2_fix_at_root_breaks_heap_order :
    isMinHeap c2Monitor.store c2Monitor.heap ∧
    (watch c2Monitor 11 1 100 0).2 = true ∧
    ¬ isMinHeap (watch c2Monitor 11 1 100 0).1.store
        (watch c2Monitor 11 1 100 0).1.heap := by
  refine ⟨by decide, by decide, by decide⟩

/-- C3: refreshing a queued key before its original expiry is processed
cancels that expiry: starting from a fresh monitor, `Watch k v1` at `t0`
then `Watch k v2` at `t1` (different value, so the refresh happens), any
completed sweep strictly before the new expiry `t1 + d` — in particular at
the original expiry `t0 + d` — emits nothing and changes nothing, and one
completed sweep at or after `t1 + d` with channel capacity available emits
exactly one notification for `k`. -/
theorem C3_refresh_cancels_expiration (k : K) (v1 v2 : T)
    (t0 t1 d s1 s2 : Int) (cap : Nat) (hv : v1 ≠ v2) (hs1 : s1 < t1 + d)
    (hs2 : t1 + d ≤ s2) (hcap : 1 ≤ cap) :
    (∀ fuel, sweepFuel (fuel + 1)
        (Watch (Watch (emptyMonitor d) k v1 t0).1 k v2 t1).1 [] cap s1
      = some ((Watch (Watch (emptyMonitor d) k v1 t0).1 k v2 t1).1, [])) ∧
    sweepFuel 2 (Watch (Watch (emptyMonitor d) k v1 t0).1 k v2 t1).1 [] cap s2
      = some (⟨[⟨k, v2, t1 + d, false⟩], [], [], d⟩, [k]) := by
  have hm2 : (Watch (Watch (emptyMonitor (K := K) (T := T) d) k v1 t0).1
      k v2 t1).1 = ⟨[⟨k, v2, t1 + d, false⟩], [0], [(k, 0)], d⟩ := by
    simp only [Watch_emptyMonitor]
    rw [Watch_refresh_singleton k v1 v2 (t0 + d) t1 d hv]
  constructor
  · intro fuel
    rw [hm2]
    exact sweepFuel_of_stop fuel _ [] cap s1 _ []
      (sweepStep_not_due _ [] cap s1 0 [] ⟨k, v2, t1 + d, false⟩ rfl rfl hs1)
  · rw [hm2]
    have he : eraseKey [(k, (0 : Nat))] k = [] := by simp [eraseKey]
    have hstep := sweepStep_send_singleton
      (⟨[⟨k, v2, t1 + d, false⟩], [0], [(k, 0)], d⟩ : Monitor K T) [] cap s2
      0 ⟨k, v2, t1 + d, false⟩ rfl rfl hs2 rfl (by simp [lookupPtr])
      (by simp only [List.length_nil]; omega)
    show sweepFuel (1 + 1) _ [] cap s2 = _
    rw [sweepFuel, hstep]
    simp only [he, List.nil_append]
    rfl

/-- C4: a completed sweep only ever appends keys that were due: every key in
the final channel buffer either was already buffered, or had — in the
sweep's starting state — a current (table-reachable) live entry whose
expiration is at most the sweep time `now`.  No key with a still-future
expiry is ever sent. -/
theorem C4_no_notification_before_expiry (fuel : Nat) (m : Monitor K T)
    (ch : List K) (cap : Nat) (now : Int) (m' : Monitor K T) (ch' : List K)
    (h : sweepFuel fuel m ch cap now = some (m', ch')) :
    ∀ x ∈ ch', x ∈ ch ∨ ∃ p it, lookupPtr m.items x = some p ∧
      m.store.get? p = some it ∧ it.key = x ∧ it.removed = false ∧
      it.expires ≤ now :=
  (sweepFuel_sent fuel m ch cap now m' ch' h).1

/-- A single live entry for key 3 that expired at time `-1`. -/
def c4Monitor : Monitor Nat Nat :=
  ⟨[⟨3, 0, -1, false⟩], [0], [(3, 0)], 0⟩

/-- Witness for C4 at a concrete completed sweep that delivers key 3. -/
theorem C4_no_notification_before_expiry_witness :
    (3 : Nat) ∈ ([] : List Nat) ∨ ∃ p it,
      lookupPtr c4Monitor.items 3 = some p ∧
      c4Monitor.store.get? p = some it ∧ it.key = 3 ∧ it.removed = false ∧
      it.expires ≤ 0 :=
  C4_no_notification_before_expiry 2 c4Monitor [] 1 0
    ⟨[⟨3, 0, -1, false⟩], [], [], 0⟩ [3] (by decide) 3 (by decide)

/-- C5: a key watched once in a fresh monitor and never refreshed or
removed is delivered exactly once: one completed sweep at or after its
expiry with channel capacity available emits exactly `[k]`, immediately
afterwards `Get k` reports not-found (the key was deleted from the table in
the same step as the successful send), and every later completed sweep of
the resulting state emits nothing further. -/
theorem C5_exactly_once_expiration (k : K) (v : T) (t0 d s : Int)
    (cap : Nat) (hdue : t0 + d ≤ s) (hcap : 1 ≤ cap) :
    sweepFuel 2 (Watch (emptyMonitor d) k v t0).1 [] cap s
      = some (⟨[⟨k, v, t0 + d, false⟩], [], [], d⟩, [k]) ∧
    Get (⟨[⟨k, v, t0 + d, false⟩], [], [], d⟩ : Monitor K T) k = none ∧
    ∀ (fuel : Nat) (ch2 : List K) (cap2 : Nat) (now2 : Int),
      sweepFuel (fuel + 1)
        (⟨[⟨k, v, t0 + d, false⟩], [], [], d⟩ : Monitor K T) ch2 cap2 now2
      = some (⟨[⟨k, v, t0 + d, false⟩], [], [], d⟩, ch2) := by
  have hm1 : (Watch (emptyMonitor (K := K) (T := T) d) k v t0).1
      = ⟨[⟨k, v, t0 + d, false⟩], [0], [(k, 0)], d⟩ := by
    rw [Watch_emptyMonitor]
  refine ⟨?_, Get_eq_none_of_lookup_none _ _ rfl, ?_⟩
  · rw [hm1]
    have he : eraseKey [(k, (0 : Nat))] k = [] := by simp [eraseKey]
    have hstep := sweepStep_send_singleton
      (⟨[⟨k, v, t0 + d, false⟩], [0], [(k, 0)], d⟩ : Monitor K T) [] cap s
      0 ⟨k, v, t0 + d, false⟩ rfl rfl hdue rfl (by simp [lookupPtr])
      (by simp only [List.length_nil]; omega)
    show sweepFuel (1 + 1) _ [] cap s = _
    rw [sweepFuel, hstep]
    simp only [he, List.nil_append]
    rfl
  · intro fuel ch2 cap2 now2
    rw [sweepFuel]
    rfl

/-- Witness for C3 at concrete inputs: refresh at t=5 with TTL 10; the
sweep at t=14 (past the original expiry 10) emits nothing, the sweep at
t=15 emits exactly one notification. -/
theorem C3_refresh_cancels_expiration_witness :
    sweepFuel 1 (Watch (Watch (emptyMonitor (K := Nat) (T := Nat) 10)
        0 1 0).1 0 2 5).1 [] 1 14
      = some ((Watch (Watch (emptyMonitor (K := Nat) (T := Nat) 10)
        0 1 0).1 0 2 5).1, []) ∧
    sweepFuel 2 (Watch (Watch (emptyMonitor (K := Nat) (T := Nat) 10)
        0 1 0).1 0 2 5).1 [] 1 15
      = some (⟨[⟨0, 2, 15, false⟩], [], [], 10⟩, [0]) :=
  ⟨(C3_refresh_cancels_expiration 0 1 2 0 5 10 14 15 1 (by decide)
      (by decide) (by decide) (by decide)).1 0,
    (C3_refresh_cancels_expiration 0 1 2 0 5 10 14 15 1 (by decide)
      (by decide) (by decide) (by decide)).2⟩

/-- Witness for C5 at concrete inputs. -/
theorem C5_exactly_once_expiration_witness :
    sweepFuel 2 (Watch (emptyMonitor (K := Nat) (T := Nat) 10) 4 9 0).1 []
        1 12 = some (⟨[⟨4, 9, 10, false⟩], [], [], 10⟩, [4]) ∧
    Get (⟨[⟨4, 9, 10, false⟩], [], [], 10⟩ : Monitor Nat Nat) 4 = none ∧
    sweepFuel 1 (⟨[⟨4, 9, 10, false⟩], [], [], 10⟩ : Monitor Nat Nat) [] 3 99
      = some (⟨[⟨4, 9, 10, false⟩], [], [], 10⟩, []) :=
  ⟨(C5_exactly_once_expiration 4 9 0 10 12 1 (by decide) (by decide)).1,
    (C5_exactly_once_expiration 4 9 0 10 12 1 (by decide) (by decide)).2.1,
    (C5_exactly_once_expiration 4 9 0 10 12 1 (by decide) (by decide)).2.2
      0 [] 3 99⟩

/-- C6: after `Remove k`, `Get k` immediately reports not-found, and a
completed sweep of the removed state never emits a notification for `k`
(any `k` in the final buffer was already there) and leaves `k` absent from
the table, so later sweeps cannot emit it either. -/
theorem C6_remove_suppresses_notification (m : Monitor K T) (k : K)
    (fuel : Nat) (ch : List K) (cap : Nat) (now : Int) (m' : Monitor K T)
    (ch' : List K)
    (h : sweepFuel fuel (Remove m k) ch cap now = some (m', ch')) :
    Get (Remove m k) k = none ∧ (k ∈ ch' → k ∈ ch) ∧
    lookupPtr m'.items k = none := by
  have h0 : lookupPtr (Remove m k).items k = none := lookupPtr_Remove_self m k
  obtain ⟨hsent, hnone, -⟩ := sweepFuel_sent fuel (Remove m k) ch cap now m' ch' h
  refine ⟨Get_eq_none_of_lookup_none _ _ h0, ?_, hnone k h0⟩
  intro hk
  rcases hsent k hk with hk' | ⟨p, it, hl, -⟩
  · exact hk'
  · rw [h0] at hl
    exact absurd hl (by simp)

/-- A single live entry for key 1, not yet removed. -/
def c6Monitor : Monitor Nat Nat :=
  ⟨[⟨1, 2, 0, false⟩], [0], [(1, 0)], 0⟩

/-- Witness for C6: remove key 1, then run a completed sweep past the
entry's expiry with free channel capacity — nothing is emitted. -/
theorem C6_remove_suppresses_notification_witness :
    Get (Remove c6Monitor 1) 1 = none ∧
    lookupPtr (⟨[⟨1, 2, 0, true⟩], [], [], 0⟩ : Monitor Nat Nat).items 1
      = none :=
  ⟨(C6_remove_suppresses_notification c6Monitor 1 2 [] 5 10
      ⟨[⟨1, 2, 0, true⟩], [], [], 0⟩ [] (by decide)).1,
    (C6_remove_suppresses_notification c6Monitor 1 2 [] 5 10
      ⟨[⟨1, 2, 0, true⟩], [], [], 0⟩ [] (by decide)).2.2⟩

/-- C7: the concrete scenario `watch("s",1); watch("s",1); watch("s",2);
get("s"); remove("s"); get("s")` returns `true`, `false`, `true`,
`(2, expiry, found)`, and not-found after the removal.  Times: the first
watch at 0, the no-op at 10, the refresh at 20, with default TTL 100, so
the final expiry is 120. -/
theorem C7_watch_get_remove_scenario :
    (Watch (emptyMonitor (K := String) (T := Int) 100) "s" 1 0).2 = true ∧
    (Watch (Watch (emptyMonitor (K := String) (T := Int) 100) "s" 1 0).1
      "s" 1 10).2 = false ∧
    (Watch (Watch (Watch (emptyMonitor (K := String) (T := Int) 100)
      "s" 1 0).1 "s" 1 10).1 "s" 2 20).2 = true ∧
    Get (Watch (Watch (Watch (emptyMonitor (K := String) (T := Int) 100)
      "s" 1 0).1 "s" 1 10).1 "s" 2 20).1 "s" = some (2, 120) ∧
    Get (Remove (Watch (Watch (Watch (emptyMonitor (K := String)
      (T := Int) 100) "s" 1 0).1 "s" 1 10).1 "s" 2 20).1 "s") "s" = none := by
  refine ⟨by decide, by decide, by decide, by decide, by decide⟩

/-- C8: `watch` on a key already present with an unchanged value returns
`false` and leaves the monitor exactly as it was: no field of any entry,
no table binding and no heap slot changes, and in particular the TTL is
not refreshed.  The same holds for the public `Watch`. -/
theorem C8_unchanged_value_is_noop (m : Monitor K T) (k : K) (v : T)
    (now ttl : Int) (p : Nat) (it : Entry K T)
    (hlk : lookupPtr m.items k = some p) (hsp : m.store.get? p = some it)
    (hv : it.value = v) :
    watch m k v now ttl = (m, false) ∧ Watch m k v now = (m, false) := by
  constructor
  · simp only [watch, hlk, hsp, if_pos hv]
  · simp only [Watch, watch, hlk, hsp, if_pos hv]

/-- Witness for C8 at a concrete single-entry monitor. -/
theorem C8_unchanged_value_is_noop_witness :
    watch (⟨[⟨0, 5, 10, false⟩], [0], [(0, 0)], 3⟩ : Monitor Nat Nat) 0 5 7 3
      = (⟨[⟨0, 5, 10, false⟩], [0], [(0, 0)], 3⟩, false) ∧
    Watch (⟨[⟨0, 5, 10, false⟩], [0], [(0, 0)], 3⟩ : Monitor Nat Nat) 0 5 7
      = (⟨[⟨0, 5, 10, false⟩], [0], [(0, 0)], 3⟩, false) :=
  C8_unchanged_value_is_noop _ 0 5 7 3 0 ⟨0, 5, 10, false⟩ (by decide)
    (by decide) (by decide)

/-- C9: in every reachable monitor state, each table binding points to an
entry for that key that occurs exactly once in the heap, and conversely
every non-tombstoned heap entry is pointer-identical to the table's
current entry for its key. -/
theorem C9_table_heap_invariant (m : Monitor K T) (h : Reachable m) :
    TableHeapInv m := by
  have hwf := reachable_WF h
  constructor
  · intro k p hk
    obtain ⟨it, hit, hkey, -⟩ := hwf.get_of_lookup hk
    exact ⟨List.count_eq_one_of_mem hwf.heap_nodup (hwf.items_heap k p hk),
      it, hit, hkey⟩
  · exact hwf.heap_items

/-- Witness for C9 at a concrete reachable state (one watch call). -/
theorem C9_table_heap_invariant_witness :
    TableHeapInv (watch (emptyMonitor (K := Nat) (T := Nat) 5) 1 2 3 4).1 :=
  C9_table_heap_invariant _ (Reachable.watch _ 1 2 3 4 (Reachable.empty 5))

/-- C10: in every reachable monitor state, every entry reachable through
the table has its tombstone clear — `Remove` deletes the key in the same
step as setting the tombstone, so `Get` and `watch` never see a tombstoned
table entry. -/
theorem C10_table_entries_not_tombstoned (m : Monitor K T)
    (h : Reachable m) : TableLiveInv m :=
  fun k p it hl hg => (reachable_WF h).items_live k p it hl hg

/-- Witness for C10 at a concrete reachable state (watch then remove then
watch again). -/
theorem C10_table_entries_not_tombstoned_witness :
    TableLiveInv (watch (Remove (watch (emptyMonitor (K := Nat)
      (T := Nat) 5) 1 2 3 4).1 1) 1 6 7 4).1 :=
  C10_table_entries_not_tombstoned _
    (Reachable.watch _ 1 6 7 4 (Reachable.remove _ 1
      (Reachable.watch _ 1 2 3 4 (Reachable.empty 5))))

end Timestate
